import Mathlib

/-!
Verification development for `chm2docset.go`, a converter from CHM help
archives to Dash-style docset bundles.  Strings and byte buffers are
shallowly embedded as `List Char` (Go strings are byte/rune sequences;
every character class in the program's regular expressions is ASCII, so
`Char`-level modelling is faithful).  External collaborators
(the `golang.org/x/text` encoding resolvers and transcoder, the SQLite
driver's failure modes, `filepath.Rel`) are abstracted as function
parameters; everything else is translated directly from the source.
-/

/-- Go strings / byte buffers, embedded as lists of characters. -/
abbrev GoStr := List Char

namespace Chm2Docset

/-- Lower-case a string character-wise (model of `strings.ToLower`;
the program only lower-cases ASCII charset names and tag literals). -/
def lowerStr (s : GoStr) : GoStr := s.map Char.toLower

/-- Case-insensitive equality (model of `strings.EqualFold` on the ASCII
strings this program compares). -/
def ciEq (a b : GoStr) : Bool := lowerStr a == lowerStr b

/-- If the first `p.length` characters of `s` case-fold to `p`
(`p` is given lower-case), return the remainder; otherwise `none`.
This is the building block for the case-insensitive literal pieces of the
program's `(?i)` regular expressions. -/
def dropCI (p s : GoStr) : Option GoStr :=
  if lowerStr (s.take p.length) = p then some (s.drop p.length) else none

/-- Model of `strings.HasSuffix`. -/
def hasSuffix (s suf : GoStr) : Bool :=
  decide (suf.length ≤ s.length) && (s.drop (s.length - suf.length) == suf)

/-- Model of `strings.TrimSuffix`. -/
def trimSuffix (s suf : GoStr) : GoStr :=
  if hasSuffix s suf then s.take (s.length - suf.length) else s

/-- Scan a reversed path for its extension: take characters through the
first `'.'`, failing on a `'/'` (the backwards scan of `filepath.Ext`). -/
def takeThruDot : GoStr → Option GoStr
  | [] => none
  | c :: rest =>
    if c = '/' then none
    else if c = '.' then some [c]
    else (takeThruDot rest).map (fun t => c :: t)

/-- Model of `filepath.Ext`: the suffix of the final path element starting
at its last dot, or empty when there is none. -/
def goExt (p : GoStr) : GoStr :=
  (((takeThruDot p.reverse).getD []).reverse)

/-- Model of `filepath.Base` (Unix separators): strip trailing slashes,
keep the last element; `""` gives `"."`, an all-slash path gives `"/"`. -/
def goBase (p : GoStr) : GoStr :=
  if p = [] then ['.']
  else
    let r := p.reverse.dropWhile (fun c => c = '/')
    let name := (r.takeWhile (fun c => c ≠ '/')).reverse
    if name = [] then ['/'] else name

/-- Split a path on `'/'` (used by the model of `filepath.Clean`).
Always returns a non-empty list of components. -/
def splitSlash : GoStr → List GoStr
  | [] => [[]]
  | c :: rest =>
    let r := splitSlash rest
    if c = '/' then [] :: r
    else
      match r with
      | [] => [[c]]
      | g :: gs => (c :: g) :: gs

/-- One step of `filepath.Clean`'s element processing.  `acc` holds the
already-emitted components in reverse order; empty and `"."` components
are dropped, `".."` pops the previous component unless the path is rooted
at the top or the accumulator is itself all `".."`. -/
def cleanStep (rooted : Bool) (acc : List GoStr) (c : GoStr) : List GoStr :=
  if c = [] ∨ c = ['.'] then acc
  else if c = ['.', '.'] then
    match acc with
    | [] => if rooted then [] else [['.', '.']]
    | a :: rest => if a = ['.', '.'] then c :: a :: rest else rest
  else c :: acc

/-- Fold `cleanStep` over all components. -/
def cleanComps (rooted : Bool) (cs : List GoStr) : List GoStr :=
  cs.foldl (cleanStep rooted) []

/-- Join components with `'/'`. -/
def interSlash : List GoStr → GoStr
  | [] => []
  | [g] => g
  | g :: h :: t => g ++ '/' :: interSlash (h :: t)

/-- Model of `filepath.Clean` for `'/'`-separated paths: the lexical
simplification Go applies inside `filepath.Join`. -/
def goClean (s : GoStr) : GoStr :=
  if s = [] then ['.']
  else
    let rooted := s.head? = some '/'
    let body := interSlash (cleanComps rooted (splitSlash s)).reverse
    if rooted then '/' :: body
    else if body = [] then ['.'] else body

/-- Model of `filepath.Join` on two elements: non-empty elements are
joined with `'/'` and the result is cleaned (Go's documented behaviour). -/
def goJoin (a b : GoStr) : GoStr :=
  if a = [] ∧ b = [] then []
  else if a = [] then goClean b
  else if b = [] then goClean a
  else goClean (a ++ '/' :: b)

/-! ### CLI options and bundle paths (`Options` methods in the source) -/

/-- The program's option record (`Options` in the source). -/
structure Options where
  Outdir : GoStr
  Platform : GoStr
  SourcePath : GoStr
deriving DecidableEq, Repr

/-- `Options.SourceFilename`: `filepath.Base(opts.SourcePath)`. -/
def Options.SourceFilename (opts : Options) : GoStr :=
  goBase opts.SourcePath

/-- `Options.Basename`: source file name with its extension trimmed. -/
def Options.Basename (opts : Options) : GoStr :=
  trimSuffix opts.SourceFilename (goExt opts.SourceFilename)

/-- `Options.DocsetPath`: the output directory itself when it already ends
in `.docset`, otherwise the join of the output directory with
`Basename + ".docset"`. -/
def Options.DocsetPath (opts : Options) : GoStr :=
  if hasSuffix opts.Outdir ".docset".toList then opts.Outdir
  else goJoin opts.Outdir (opts.Basename ++ ".docset".toList)

/-- Character class kept by `safeBundleRE` replacement: the regex
`[^^a-zA-Z\d-_]` deletes everything except caret, ASCII letters, digits,
hyphen and underscore. -/
def isSafeBundleChar (c : Char) : Bool :=
  decide (c = '^' ∨ ('a' ≤ c ∧ c ≤ 'z') ∨ ('A' ≤ c ∧ c ≤ 'Z') ∨
    ('0' ≤ c ∧ c ≤ '9') ∨ c = '-' ∨ c = '_')

/-- `Options.BundleIdentifier`: fixed reverse-DNS namespace plus the
sanitized basename (`safeBundleRE.ReplaceAllString(basename, "")` removes
every disallowed character, i.e. filters). -/
def Options.BundleIdentifier (opts : Options) : GoStr :=
  "io.ngs.documentation.".toList ++ opts.Basename.filter isSafeBundleChar

/-! ### The `titleRE` matcher

`titleRE = (?i)<title[^>]*>([^<]+)</title>`.  At a fixed start position the
pattern is deterministic: `[^>]*` can only consume non-`'>'` characters and
must be followed by `'>'`, so it is exactly the run up to the first `'>'`;
likewise `([^<]+)` is exactly the non-empty run up to the first `'<'`,
which the literal `</title>` must then match case-insensitively.  The
overall match is the leftmost start position at which this succeeds. -/

/-- Attempt `titleRE` anchored at the start of `s`; returns the capture
group (the title text). -/
def matchTitleAt (s : GoStr) : Option GoStr :=
  match dropCI "<title".toList s with
  | none => none
  | some s1 =>
    let attrs := s1.takeWhile (fun c => c ≠ '>')
    match s1.drop attrs.length with
    | c2 :: s3 =>
      if c2 = '>' then
        let t := s3.takeWhile (fun c => c ≠ '<')
        if t = [] then none
        else
          match dropCI "</title>".toList (s3.drop t.length) with
          | some _ => some t
          | none => none
      else none
    | [] => none

/-- Leftmost application of `titleRE` (`FindStringSubmatch`): scan start
positions left to right. -/
def findTitle : GoStr → Option GoStr
  | [] => none
  | c :: rest =>
    match matchTitleAt (c :: rest) with
    | some t => some t
    | none => findTitle rest

/-! ### The `metaCharsetRE` matcher

`metaCharsetRE = (?i)<meta\s+[^>]*charset\s*=\s*["']?([a-zA-Z0-9-]+)["']?`.
After the literal `<meta` and one mandatory `\s` character, the greedy
`[^>]*` places the literal `charset` at the latest position (before any
`'>'`) at which the rest of the pattern still matches; the tail after
`charset` is deterministic because `\s*` cannot absorb `'='`, quotes are
not name characters, and `["']?` can always match empty. -/

/-- Characters of the regex class `\s` in Go's `regexp`. -/
def isRegexSpace (c : Char) : Bool :=
  decide (c = '\t' ∨ c = '\n' ∨ c = Char.ofNat 12 ∨ c = '\r' ∨ c = ' ')

/-- Characters of the capture class `[a-zA-Z0-9-]`. -/
def isCharsetChar (c : Char) : Bool :=
  decide (('a' ≤ c ∧ c ≤ 'z') ∨ ('A' ≤ c ∧ c ≤ 'Z') ∨
    ('0' ≤ c ∧ c ≤ '9') ∨ c = '-')

/-- Match `\s*=\s*["']?([a-zA-Z0-9-]+)["']?` at the start of `s`
(the part of `metaCharsetRE` after the literal `charset`);
returns the captured name. -/
def afterCharset (s : GoStr) : Option GoStr :=
  match s.dropWhile isRegexSpace with
  | '=' :: s2 =>
    let s3 := s2.dropWhile isRegexSpace
    let s4 := match s3 with
      | c :: t => if c = '"' ∨ c = '\'' then t else s3
      | [] => []
    let name := s4.takeWhile isCharsetChar
    if name = [] then none else some name
  | _ => none

/-- Match the case-insensitive literal `charset` followed by
`afterCharset` at the start of `s`. -/
def tryCharsetHere (s : GoStr) : Option GoStr :=
  match dropCI "charset".toList s with
  | none => none
  | some rest => afterCharset rest

/-- Search for the `charset...` tail inside the region covered by the
greedy `[^>]*`: latest matching position wins, and no position at or past
a `'>'` is considered. -/
def searchCharset : GoStr → Option GoStr
  | [] => none
  | c :: rest =>
    if c = '>' then none
    else
      match searchCharset rest with
      | some v => some v
      | none => tryCharsetHere (c :: rest)

/-- Attempt `metaCharsetRE` anchored at the start of `s`: the literal
`<meta`, at least one `\s` character, then the `charset` search. -/
def tryMetaAt (s : GoStr) : Option GoStr :=
  match dropCI "<meta".toList s with
  | none => none
  | some s1 =>
    match s1 with
    | [] => none
    | c :: rest => if isRegexSpace c then searchCharset rest else none

/-- Leftmost application of `metaCharsetRE` (`FindSubmatch`). -/
def metaCharsetFind : GoStr → Option GoStr
  | [] => none
  | c :: rest =>
    match tryMetaAt (c :: rest) with
    | some v => some v
    | none => metaCharsetFind rest

/-! ### `decodeToUTF8` and `getEncoding`

The encoding table of `golang.org/x/text` is an external collaborator: the
two lookups (`ianaindex.MIME.Encoding`, `ianaindex.IANA.Encoding`) and the
transcoding step (`transform.NewReader` + `io.ReadAll`) are abstracted as
function parameters over an abstract encoding type, with `none` standing
for the error outcome. -/

/-- `getEncoding`: two-stage lookup, MIME-registered names first, then
IANA-registered names. -/
def getEncoding {Enc : Type} (resolveMIME resolveIANA : GoStr → Option Enc)
    (name : GoStr) : Option Enc :=
  match resolveMIME name with
  | some e => some e
  | none => resolveIANA name

/-- The charset declaration scan of `decodeToUTF8`: apply
`metaCharsetRE` to at most the first 4096 bytes. -/
def sniffCharset (b : GoStr) : Option GoStr :=
  metaCharsetFind (b.take (min b.length 4096))

/-- `decodeToUTF8`: sniff a declared charset from the first 4096 bytes;
with no declaration, a UTF-8 declaration, an unresolvable name, or a
transcoding failure, return the buffer unchanged; otherwise return the
transcoded buffer.  Total — no error is ever reported to the caller. -/
def decodeToUTF8 {Enc : Type} (resolveMIME resolveIANA : GoStr → Option Enc)
    (transcode : Enc → GoStr → Option GoStr) (b : GoStr) : GoStr :=
  match sniffCharset b with
  | none => b
  | some rawName =>
    let charsetName := lowerStr rawName
    if charsetName = "utf-8".toList ∨ charsetName = "utf8".toList then b
    else
      match getEncoding resolveMIME resolveIANA charsetName with
      | none => b
      | some enc =>
        match transcode enc b with
        | none => b
        | some decoded => decoded

/-! ### Title normalization (`strings.Fields` / `strings.Join`) -/

/-- White-space per Go's `unicode.IsSpace`, the splitting predicate of
`strings.Fields`. -/
def goIsSpace (c : Char) : Bool :=
  decide (c ∈ [' ', '\t', '\n', Char.ofNat 11, Char.ofNat 12, '\r',
    Char.ofNat 0x85, Char.ofNat 0xA0, Char.ofNat 0x1680,
    Char.ofNat 0x2000, Char.ofNat 0x2001, Char.ofNat 0x2002,
    Char.ofNat 0x2003, Char.ofNat 0x2004, Char.ofNat 0x2005,
    Char.ofNat 0x2006, Char.ofNat 0x2007, Char.ofNat 0x2008,
    Char.ofNat 0x2009, Char.ofNat 0x200A, Char.ofNat 0x2028,
    Char.ofNat 0x2029, Char.ofNat 0x202F, Char.ofNat 0x205F,
    Char.ofNat 0x3000])

/-- Accumulator version of `strings.Fields`: `acc` holds the current word
reversed. -/
def fieldsAux : GoStr → GoStr → List GoStr
  | [], acc => if acc = [] then [] else [acc.reverse]
  | c :: rest, acc =>
    if goIsSpace c then
      if acc = [] then fieldsAux rest [] else acc.reverse :: fieldsAux rest []
    else fieldsAux rest (c :: acc)

/-- Model of `strings.Fields`: maximal runs of non-space characters. -/
def fields (s : GoStr) : List GoStr := fieldsAux s []

/-- Model of `strings.Join(ws, " ")`. -/
def joinSp : List GoStr → GoStr
  | [] => []
  | [w] => w
  | w :: x :: r => w ++ ' ' :: joinSp (x :: r)

/-- The title normalization of `extractTitle`:
`strings.Join(strings.Fields(title), " ")`. -/
def normalizeTitle (t : GoStr) : GoStr := joinSp (fields t)

/-- Model of the external `html.UnescapeString`, restricted to the five
predefined XML/HTML entities; the source calls the library function, whose
full named-entity table lives outside this repository.  Text without an
entity reference passes through unchanged; `&lt;` becomes `'<'`. -/
def unescapeString : GoStr → GoStr
  | [] => []
  | '&' :: 'l' :: 't' :: ';' :: rest => '<' :: unescapeString rest
  | '&' :: 'g' :: 't' :: ';' :: rest => '>' :: unescapeString rest
  | '&' :: 'a' :: 'm' :: 'p' :: ';' :: rest => '&' :: unescapeString rest
  | '&' :: 'q' :: 'u' :: 'o' :: 't' :: ';' :: rest => '"' :: unescapeString rest
  | '&' :: '#' :: '3' :: '9' :: ';' :: rest => '\'' :: unescapeString rest
  | c :: rest => c :: unescapeString rest

/-! ### The indexing pipeline (`extractTitle`, `indexDocs`, `CreateDatabase`)

The filesystem walk is embedded as a fold over the list of entries
`filepath.WalkDir` would deliver, in delivery order.  Each entry carries
the `err` argument the walk callback would receive (non-`none` for an
unreadable directory), the `IsDir` flag, and the outcome of reading the
file (`Except`: error message or raw bytes).  `filepath.Rel` and a
non-uniqueness insertion failure of the SQLite driver are oracles passed
as parameters. -/

/-- `headerReadLimit = 64 * 1024`: only this many leading bytes of a file
are read when looking for the title. -/
def headerReadLimit : Nat := 64 * 1024

/-- A row of the `searchIndex` relation (without the auto-assigned id). -/
structure Row where
  name : GoStr
  type : GoStr
  path : GoStr
deriving DecidableEq, Repr

/-- One event of the directory walk. -/
structure DocEntry where
  path : GoStr
  walkErr : Option GoStr
  isDir : Bool
  readResult : Except GoStr GoStr
deriving Repr

/-- `extractTitle` on the outcome of opening/reading a file: a read
failure propagates as an error; otherwise only the first
`headerReadLimit` bytes are decoded and searched, and a missing title
yields the empty string, not an error. -/
def extractTitle {Enc : Type} (resolveMIME resolveIANA : GoStr → Option Enc)
    (transcode : Enc → GoStr → Option GoStr)
    (read : Except GoStr GoStr) : Except GoStr GoStr :=
  match read with
  | .error e => .error e
  | .ok fileBytes =>
    let b := fileBytes.take headerReadLimit
    let content := decodeToUTF8 resolveMIME resolveIANA transcode b
    match findTitle content with
    | some m => .ok (normalizeTitle (unescapeString m))
    | none => .ok []

/-- Does the extension match `.htm`/`.html` case-insensitively
(`strings.EqualFold`)? -/
def extOk (path : GoStr) : Bool :=
  ciEq (goExt path) ".htm".toList || ciEq (goExt path) ".html".toList

/-- The fixed category label of every inserted row. -/
def guideStr : GoStr := "Guide".toList

/-- The warning line logged for a skipped file. -/
def warnMsg (path err : GoStr) : GoStr :=
  "Warning: skipping file ".toList ++ path ++ " due to error: ".toList ++ err

/-- `INSERT OR IGNORE` against the unique index on `(name, type, path)`:
a colliding row is ignored, a new row is appended. -/
def insertIgnore (rows : List Row) (r : Row) : List Row :=
  if r ∈ rows then rows else rows ++ [r]

/-- One `stmt.Exec`: the driver-failure oracle may fail the statement for
a non-uniqueness reason; otherwise insert-or-ignore semantics apply. -/
def stmtExec (execErr : Row → Option GoStr) (rows : List Row) (r : Row) :
    Except GoStr (List Row) :=
  match execErr r with
  | some e => .error e
  | none => .ok (insertIgnore rows r)

/-- The body of the `WalkDir` callback in `indexDocs`: for one entry,
either abort the walk with an error (a walk error, a `Rel` failure, a
statement failure) or continue, optionally logging one warning (a read
failure) and optionally inserting one row.  Directories, non-HTML files,
read failures and empty titles leave the pending rows unchanged. -/
def processEntry {Enc : Type} (resolveMIME resolveIANA : GoStr → Option Enc)
    (transcode : Enc → GoStr → Option GoStr)
    (rel : GoStr → GoStr → Except GoStr GoStr)
    (execErr : Row → Option GoStr) (basePath : GoStr)
    (e : DocEntry) (rows : List Row) :
    Except GoStr (Option GoStr × List Row) :=
  match e.walkErr with
  | some m => .error m
  | none =>
    if e.isDir then .ok (none, rows)
    else if extOk e.path then
      match extractTitle resolveMIME resolveIANA transcode e.readResult with
      | .error m => .ok (some (warnMsg e.path m), rows)
      | .ok title =>
        if title = [] then .ok (none, rows)
        else
          match rel basePath e.path with
          | .error m => .error m
          | .ok relPath =>
            match stmtExec execErr rows ⟨title, guideStr, relPath⟩ with
            | .error m => .error m
            | .ok rows2 => .ok (none, rows2)
    else .ok (none, rows)

/-- The walk of `indexDocs`: accumulated warnings plus either the pending
rows of the transaction (walk completed) or the error that aborted it.
An abort stops the walk immediately; otherwise the entry's warning, if
any, is appended and the walk continues. -/
def indexDocs {Enc : Type} (resolveMIME resolveIANA : GoStr → Option Enc)
    (transcode : Enc → GoStr → Option GoStr)
    (rel : GoStr → GoStr → Except GoStr GoStr)
    (execErr : Row → Option GoStr) (basePath : GoStr)
    (ws : List GoStr) (rows : List Row) :
    List DocEntry → List GoStr × Except GoStr (List Row)
  | [] => (ws, .ok rows)
  | e :: rest =>
    match processEntry resolveMIME resolveIANA transcode rel execErr basePath e rows with
    | .error m => (ws, .error m)
    | .ok (warn, rows2) =>
      indexDocs resolveMIME resolveIANA transcode rel execErr basePath
        (ws ++ warn.toList) rows2 rest

/-- The triple an entry contributes when nothing fails: non-directory,
HTML extension, readable, non-empty title, relativizable path. -/
def acceptOf {Enc : Type} (resolveMIME resolveIANA : GoStr → Option Enc)
    (transcode : Enc → GoStr → Option GoStr)
    (rel : GoStr → GoStr → Except GoStr GoStr) (basePath : GoStr)
    (e : DocEntry) : Option Row :=
  if e.isDir then none
  else if extOk e.path then
    match extractTitle resolveMIME resolveIANA transcode e.readResult with
    | .error _ => none
    | .ok title =>
      if title = [] then none
      else
        match rel basePath e.path with
        | .error _ => none
        | .ok relPath => some ⟨title, guideStr, relPath⟩
  else none

/-- `CreateDatabase`: remove any previous store, create the schema, run
`indexDocs` inside one transaction, commit on success, roll back on any
error.  Result: the warnings, the rows an external observer finds
committed at the store location after the run, and the error if one
occurred (in which case nothing was committed). -/
def CreateDatabase {Enc : Type} (resolveMIME resolveIANA : GoStr → Option Enc)
    (transcode : Enc → GoStr → Option GoStr)
    (rel : GoStr → GoStr → Except GoStr GoStr)
    (execErr : Row → Option GoStr) (basePath : GoStr)
    (entries : List DocEntry) : List GoStr × List Row × Option GoStr :=
  match indexDocs resolveMIME resolveIANA transcode rel execErr basePath [] [] entries with
  | (ws, .ok rows) => (ws, rows, none)
  | (ws, .error m) => (ws, [], some m)

/-! ### Concrete fixtures used by witnesses and counterexamples -/

/-- Fixture: an encoding resolver that knows no encodings. -/
def noResolve : GoStr → Option Unit := fun _ => none

/-- Fixture: a transcoder that always fails. -/
def noTranscode : Unit → GoStr → Option GoStr := fun _ _ => none

/-- Fixture: a `Rel` computation returning the path unchanged. -/
def relId : GoStr → GoStr → Except GoStr GoStr := fun _ p => .ok p

/-- Fixture: an insertion oracle that never fails. -/
def execOk : Row → Option GoStr := fun _ => none

/-! ### Helper lemmas -/

/-- `takeWhile` stops exactly at the first failing element. -/
theorem takeWhile_append_cons {p : Char → Bool} :
    ∀ (a : GoStr) (b : Char) (r : GoStr), (∀ x ∈ a, p x = true) → p b = false →
      (a ++ b :: r).takeWhile p = a := by
  intro a b r ha hb
  induction a with
  | nil => simp [List.takeWhile_cons, hb]
  | cons x xs ih =>
    have hx : p x = true := ha x (by simp)
    simp only [List.cons_append, List.takeWhile_cons, hx, if_true]
    rw [ih (fun y hy => ha y (by simp [hy]))]

/-- `dropWhile` jumps exactly to the first failing element. -/
theorem dropWhile_append_cons {p : Char → Bool} :
    ∀ (a : GoStr) (b : Char) (r : GoStr), (∀ x ∈ a, p x = true) → p b = false →
      (a ++ b :: r).dropWhile p = b :: r := by
  intro a b r ha hb
  induction a with
  | nil => simp [List.dropWhile_cons, hb]
  | cons x xs ih =>
    have hx : p x = true := ha x (by simp)
    simp only [List.cons_append, List.dropWhile_cons, hx, if_true]
    exact ih (fun y hy => ha y (by simp [hy]))

/-- Characters surviving a `metaCharsetRE` capture: `afterCharset` only
ever returns a non-empty run of `[a-zA-Z0-9-]` characters. -/
theorem afterCharset_shape {s n : GoStr} (h : afterCharset s = some n) :
    n ≠ [] ∧ ∀ c ∈ n, isCharsetChar c = true := by
  unfold afterCharset at h
  split at h
  · dsimp only at h
    split at h
    · exact absurd h (by simp)
    · rename_i hne
      obtain rfl := Option.some.inj h
      exact ⟨hne, fun c hc => List.mem_takeWhile_imp hc⟩
  · exact absurd h (by simp)

/-- `tryCharsetHere` returns only `afterCharset` results. -/
theorem tryCharsetHere_shape {s n : GoStr} (h : tryCharsetHere s = some n) :
    n ≠ [] ∧ ∀ c ∈ n, isCharsetChar c = true := by
  unfold tryCharsetHere at h
  split at h
  · exact absurd h (by simp)
  · exact afterCharset_shape h

/-- `searchCharset` returns only `tryCharsetHere` results. -/
theorem searchCharset_shape {n : GoStr} :
    ∀ {s : GoStr}, searchCharset s = some n →
      n ≠ [] ∧ ∀ c ∈ n, isCharsetChar c = true := by
  intro s
  induction s with
  | nil => intro h; exact absurd h (by simp [searchCharset])
  | cons c rest ih =>
    intro h
    unfold searchCharset at h
    split at h
    · exact absurd h (by simp)
    · split at h
      · rename_i v hv
        obtain rfl := Option.some.inj h
        exact ih hv
      · exact tryCharsetHere_shape h

/-- `tryMetaAt` returns only `searchCharset` results. -/
theorem tryMetaAt_shape {s n : GoStr} (h : tryMetaAt s = some n) :
    n ≠ [] ∧ ∀ c ∈ n, isCharsetChar c = true := by
  unfold tryMetaAt at h
  split at h
  · exact absurd h (by simp)
  · split at h
    · exact absurd h (by simp)
    · split at h
      · exact searchCharset_shape h
      · exact absurd h (by simp)

/-- Any capture of `metaCharsetRE` is a non-empty run of
`[a-zA-Z0-9-]` characters. -/
theorem metaCharsetFind_shape {n : GoStr} :
    ∀ {s : GoStr}, metaCharsetFind s = some n →
      n ≠ [] ∧ ∀ c ∈ n, isCharsetChar c = true := by
  intro s
  induction s with
  | nil => intro h; exact absurd h (by simp [metaCharsetFind])
  | cons c rest ih =>
    intro h
    unfold metaCharsetFind at h
    split at h
    · rename_i v hv
      obtain rfl := Option.some.inj h
      exact tryMetaAt_shape hv
    · exact ih h

/-! ### Claim theorems: Encoding Detector -/

/-- C3: for every input byte buffer, `decodeToUTF8` returns a string and
never surfaces an error to its caller (it is a total function into
`GoStr`, with no error or warning channel): a missing charset
declaration, an unresolvable declared charset name, and a transcoding
failure each degrade to returning the buffer itself, interpreted as
already-canonical text. -/
theorem decodeToUTF8_never_errors {Enc : Type}
    (resolveMIME resolveIANA : GoStr → Option Enc)
    (transcode : Enc → GoStr → Option GoStr) (b : GoStr) :
    (sniffCharset b = none →
      decodeToUTF8 resolveMIME resolveIANA transcode b = b) ∧
    (∀ n, sniffCharset b = some n →
      getEncoding resolveMIME resolveIANA (lowerStr n) = none →
      decodeToUTF8 resolveMIME resolveIANA transcode b = b) ∧
    (∀ n e, sniffCharset b = some n →
      getEncoding resolveMIME resolveIANA (lowerStr n) = some e →
      transcode e b = none →
      decodeToUTF8 resolveMIME resolveIANA transcode b = b) := by
  refine ⟨?_, ?_, ?_⟩
  · intro h
    unfold decodeToUTF8
    rw [h]
  · intro n h hg
    unfold decodeToUTF8
    rw [h]
    dsimp only
    split
    · rfl
    · rw [hg]
  · intro n e h hg ht
    unfold decodeToUTF8
    rw [h]
    dsimp only
    split
    · rfl
    · rw [hg]
      dsimp only
      rw [ht]

/-- Witness for C3 at a concrete buffer declaring an unresolvable
charset: the buffer comes back unchanged. -/
theorem decodeToUTF8_never_errors_witness :
    decodeToUTF8 noResolve noResolve
      noTranscode "<meta charset=koi8>x".toList =
      "<meta charset=koi8>x".toList :=
  (decodeToUTF8_never_errors noResolve noResolve
    noTranscode "<meta charset=koi8>x".toList).2.1
    "koi8".toList (by decide) rfl

/-- C7: the detector scans only the first 4096 bytes for the charset
declaration: with no declaration in that window, or a declaration that
case-folds to utf-8/utf8, the buffer is returned unchanged; a
declaration appearing only after byte 4096 has no effect on the scan;
and any captured name is a non-empty run of alphanumeric/hyphen
characters (quoted or not, the quotes are never part of the capture). -/
theorem sniffCharset_bounded_scan {Enc : Type}
    (resolveMIME resolveIANA : GoStr → Option Enc)
    (transcode : Enc → GoStr → Option GoStr) :
    (∀ b, sniffCharset b = none →
      decodeToUTF8 resolveMIME resolveIANA transcode b = b) ∧
    (∀ b n, sniffCharset b = some n →
      (lowerStr n = "utf-8".toList ∨ lowerStr n = "utf8".toList) →
      decodeToUTF8 resolveMIME resolveIANA transcode b = b) ∧
    (∀ b c : GoStr, 4096 ≤ b.length →
      sniffCharset (b ++ c) = sniffCharset b) ∧
    (∀ b n, metaCharsetFind b = some n →
      n ≠ [] ∧ ∀ c ∈ n, isCharsetChar c = true) := by
  refine ⟨?_, ?_, ?_, ?_⟩
  · intro b h
    unfold decodeToUTF8
    rw [h]
  · intro b n h hu
    unfold decodeToUTF8
    rw [h]
    dsimp only
    rw [if_pos hu]
  · intro b c h
    unfold sniffCharset
    have h1 : min (b ++ c).length 4096 = 4096 := by
      rw [List.length_append]; omega
    have h2 : min b.length 4096 = 4096 := by omega
    rw [h1, h2, List.take_append_of_le_length (by omega)]
  · intro b n h
    exact metaCharsetFind_shape h

/-- Witness for C7: a buffer declaring `UTF-8` is returned unchanged,
a post-4096-byte declaration is invisible to the scan, and the concrete
capture `Shift-JIS` is a non-empty alphanumeric/hyphen run. -/
theorem sniffCharset_bounded_scan_witness :
    decodeToUTF8 noResolve noResolve
      noTranscode "<meta charset='UTF-8'>x".toList =
      "<meta charset='UTF-8'>x".toList ∧
    sniffCharset (List.replicate 4096 'a' ++ "<meta charset=koi8>".toList) =
      sniffCharset (List.replicate 4096 'a') ∧
    ("Shift-JIS".toList ≠ [] ∧
      ∀ c ∈ "Shift-JIS".toList, isCharsetChar c = true) := by
  refine ⟨?_, ?_, ?_⟩
  · exact (sniffCharset_bounded_scan noResolve
      noResolve noTranscode).2.1 _ "UTF-8".toList (by decide)
      (by decide)
  · exact (sniffCharset_bounded_scan noResolve
      noResolve noTranscode).2.2.1 _ _
      (by rw [List.length_replicate])
  · exact (sniffCharset_bounded_scan noResolve
      noResolve noTranscode).2.2.2 "<meta charset=Shift-JIS>".toList
      _ (by decide)

/-! ### Lemmas on `fields` / `joinSp` (title normalization) -/

/-- Every word produced by `fieldsAux` is a non-empty run of
non-space characters (given the partial word in `acc` is space-free). -/
theorem fieldsAux_words :
    ∀ (s acc : GoStr), (∀ c ∈ acc, goIsSpace c = false) →
      ∀ w ∈ fieldsAux s acc, w ≠ [] ∧ ∀ c ∈ w, goIsSpace c = false := by
  intro s
  induction s with
  | nil =>
    intro acc hacc w hw
    unfold fieldsAux at hw
    split at hw
    · exact absurd hw (by simp)
    · rename_i hne
      rw [List.mem_singleton] at hw
      subst hw
      exact ⟨by simpa using hne, fun c hc => hacc c (List.mem_reverse.mp hc)⟩
  | cons c rest ih =>
    intro acc hacc w hw
    unfold fieldsAux at hw
    by_cases hsp : goIsSpace c = true
    · rw [if_pos hsp] at hw
      split at hw
      · exact ih [] (by simp) w hw
      · rename_i hne
        rcases List.mem_cons.mp hw with hw | hw
        · subst hw
          exact ⟨by simpa using hne, fun x hx => hacc x (List.mem_reverse.mp hx)⟩
        · exact ih [] (by simp) w hw
    · rw [if_neg hsp] at hw
      refine ih (c :: acc) ?_ w hw
      intro x hx
      rcases List.mem_cons.mp hx with rfl | hx
      · exact Bool.not_eq_true _ ▸ (by simpa using hsp)
      · exact hacc x hx

/-- `joinSp` of a list headed by a non-empty word is non-empty. -/
theorem joinSp_ne_nil {w : GoStr} (r : List GoStr) (hw : w ≠ []) :
    joinSp (w :: r) ≠ [] := by
  cases r with
  | nil => exact hw
  | cons x r => simp [joinSp, hw]

/-- The head of `joinSp (w :: r)` is the head of `w`. -/
theorem joinSp_head? {w : GoStr} (r : List GoStr) (hw : w ≠ []) :
    (joinSp (w :: r)).head? = w.head? := by
  cases r with
  | nil => rfl
  | cons x r =>
    show (w ++ ' ' :: joinSp (x :: r)).head? = w.head?
    exact List.head?_append_of_ne_nil _ hw

/-- The last character of `joinSp W` is the last character of `W`'s
last word. -/
theorem joinSp_getLast? :
    ∀ (W : List GoStr) (w : GoStr), (∀ u ∈ W, u ≠ []) →
      W.getLast? = some w → (joinSp W).getLast? = w.getLast? := by
  intro W
  induction W with
  | nil => intro w _ h; exact absurd h (by simp)
  | cons u W ih =>
    intro w hne h
    cases W with
    | nil =>
      obtain rfl := Option.some.inj h
      rfl
    | cons x r =>
      rw [List.getLast?_cons_cons] at h
      have hx : x ≠ [] := hne x (by simp)
      have hJ : joinSp (x :: r) ≠ [] := joinSp_ne_nil r hx
      show (u ++ ' ' :: joinSp (x :: r)).getLast? = w.getLast?
      rw [List.getLast?_append_of_ne_nil _ (by simp)]
      obtain ⟨j, J, hj⟩ := List.exists_cons_of_ne_nil hJ
      rw [hj, List.getLast?_cons_cons, ← hj]
      exact ih w (fun y hy => hne y (by simp [hy])) h

/-- Every character of `joinSp W` is the separator or a word character. -/
theorem joinSp_chars :
    ∀ (W : List GoStr), ∀ ch ∈ joinSp W, ch = ' ' ∨ ∃ u ∈ W, ch ∈ u := by
  intro W
  induction W with
  | nil => intro ch h; exact absurd h (by simp [joinSp])
  | cons w W ih =>
    intro ch h
    cases W with
    | nil => exact Or.inr ⟨w, by simp, h⟩
    | cons x r =>
      rcases List.mem_append.mp h with h | h
      · exact Or.inr ⟨w, by simp, h⟩
      · rcases List.mem_cons.mp h with rfl | h
        · exact Or.inl rfl
        · rcases ih ch h with h | ⟨u, hu, hcu⟩
          · exact Or.inl h
          · exact Or.inr ⟨u, by simp [hu], hcu⟩

/-- The no-two-adjacent-spaces relation used to state whitespace
collapsing. -/
def noTwoSpaces (a b : Char) : Prop :=
  ¬(goIsSpace a = true ∧ goIsSpace b = true)

/-- A word without space characters trivially has no two adjacent
spaces. -/
theorem chain'_of_no_space :
    ∀ (w : GoStr), (∀ c ∈ w, goIsSpace c = false) →
      List.Chain' noTwoSpaces w := by
  intro w
  induction w with
  | nil => intro _; exact List.chain'_nil
  | cons a t ih =>
    intro h
    rw [List.chain'_cons']
    refine ⟨?_, ih fun c hc => h c (by simp [hc])⟩
    intro y hy
    intro hcontra
    have := h a (by simp)
    rw [this] at hcontra
    exact Bool.false_ne_true hcontra.1

/-- `joinSp` of non-empty space-free words has no two adjacent space
characters. -/
theorem joinSp_chain' :
    ∀ (W : List GoStr),
      (∀ u ∈ W, u ≠ [] ∧ ∀ c ∈ u, goIsSpace c = false) →
      List.Chain' noTwoSpaces (joinSp W) := by
  intro W
  induction W with
  | nil => intro _; exact List.chain'_nil
  | cons w W ih =>
    intro h
    cases W with
    | nil => exact chain'_of_no_space w (h w (by simp)).2
    | cons x r =>
      show List.Chain' noTwoSpaces (w ++ ' ' :: joinSp (x :: r))
      have hx : x ≠ [] := (h x (by simp)).1
      refine List.chain'_append.mpr ⟨chain'_of_no_space w (h w (by simp)).2, ?_, ?_⟩
      · rw [List.chain'_cons']
        refine ⟨?_, ih fun u hu => h u (by simp [hu])⟩
        intro y hy hcontra
        have hyx : y ∈ x := by
          rw [joinSp_head? r hx] at hy
          exact List.mem_of_mem_head? hy
        have := (h x (by simp)).2 y hyx
        rw [this] at hcontra
        exact Bool.false_ne_true hcontra.2
      · intro a ha b hb hcontra
        have haw : a ∈ w := List.mem_of_mem_getLast? ha
        have := (h w (by simp)).2 a haw
        rw [this] at hcontra
        exact Bool.false_ne_true hcontra.1

/-! ### Lemmas on the indexing walk -/

/-- Does this entry hit the per-document read/decode failure path?
(Decoding is total, so the only such failure is a read failure.) -/
def readFails {Enc : Type} (resolveMIME resolveIANA : GoStr → Option Enc)
    (transcode : Enc → GoStr → Option GoStr) (e : DocEntry) : Bool :=
  match e.walkErr with
  | some _ => false
  | none =>
    if e.isDir then false
    else if extOk e.path then
      match extractTitle resolveMIME resolveIANA transcode e.readResult with
      | .error _ => true
      | .ok _ => false
    else false

/-- The warning an entry contributes (its read failure, when any). -/
def warnOf {Enc : Type} (resolveMIME resolveIANA : GoStr → Option Enc)
    (transcode : Enc → GoStr → Option GoStr) (e : DocEntry) : Option GoStr :=
  match e.walkErr with
  | some _ => none
  | none =>
    if e.isDir then none
    else if extOk e.path then
      match extractTitle resolveMIME resolveIANA transcode e.readResult with
      | .error m => some (warnMsg e.path m)
      | .ok _ => none
    else none

/-- A non-empty title returned by `extractTitle` is always the
normalization of some unescaped capture. -/
theorem extractTitle_ok_shape {Enc : Type}
    {resolveMIME resolveIANA : GoStr → Option Enc}
    {transcode : Enc → GoStr → Option GoStr} {rr : Except GoStr GoStr}
    {t : GoStr} (h : extractTitle resolveMIME resolveIANA transcode rr = .ok t)
    (hne : t ≠ []) : ∃ m, t = normalizeTitle (unescapeString m) := by
  unfold extractTitle at h
  split at h
  · exact absurd h (by simp)
  · dsimp only at h
    split at h
    · rename_i m _
      exact ⟨m, (Except.ok.inj h).symm⟩
    · exact absurd (Except.ok.inj h).symm hne

section WalkLemmas

variable {Enc : Type} {resolveMIME resolveIANA : GoStr → Option Enc}
variable {transcode : Enc → GoStr → Option GoStr}
variable {rel : GoStr → GoStr → Except GoStr GoStr}
variable {execErr : Row → Option GoStr} {basePath : GoStr}

/-- A read-failing entry is processed as: one warning, rows unchanged,
walk continues. -/
theorem processEntry_of_readFails {e : DocEntry} {rows : List Row}
    (hf : readFails resolveMIME resolveIANA transcode e = true) :
    ∃ m, processEntry resolveMIME resolveIANA transcode rel execErr basePath e rows =
      .ok (some (warnMsg e.path m), rows) := by
  unfold readFails at hf
  split at hf
  · exact absurd hf (by simp)
  · rename_i hw
    split at hf
    · exact absurd hf (by simp)
    · rename_i hdir
      split at hf
      · rename_i hext
        split at hf
        · rename_i m hm
          exact ⟨m, by simp [processEntry, hw, hdir, hext, hm]⟩
        · exact absurd hf (by simp)
      · exact absurd hf (by simp)

/-- The warning emitted while processing an entry is `warnOf` of the
entry. -/
theorem processEntry_warn {e : DocEntry} {rows : List Row} {w : Option GoStr}
    {rows2 : List Row}
    (h : processEntry resolveMIME resolveIANA transcode rel execErr basePath e rows =
      .ok (w, rows2)) :
    w = warnOf resolveMIME resolveIANA transcode e := by
  unfold processEntry at h
  split at h
  · exact absurd h (by simp)
  · rename_i hw
    split at h
    · rename_i hdir
      obtain ⟨hwv, hrv⟩ := Prod.mk.inj (Except.ok.inj h)
      simp [warnOf, hw, hdir, ← hwv]
    · rename_i hdir
      split at h
      · rename_i hext
        split at h
        · rename_i m hm
          obtain ⟨hwv, hrv⟩ := Prod.mk.inj (Except.ok.inj h)
          simp [warnOf, hw, hdir, hext, hm, ← hwv]
        · rename_i title hm
          split at h
          · rename_i hti
            obtain ⟨hwv, hrv⟩ := Prod.mk.inj (Except.ok.inj h)
            simp [warnOf, hw, hdir, hext, hm, hti, ← hwv]
          · rename_i hti
            split at h
            · exact absurd h (by simp)
            · rename_i relPath hrel
              split at h
              · exact absurd h (by simp)
              · rename_i rows3 hex
                obtain ⟨hwv, hrv⟩ := Prod.mk.inj (Except.ok.inj h)
                simp [warnOf, hw, hdir, hext, hm, hti, ← hwv]
      · rename_i hext
        obtain ⟨hwv, hrv⟩ := Prod.mk.inj (Except.ok.inj h)
        simp [warnOf, hw, hdir, hext, ← hwv]

/-- Successful processing updates the pending rows exactly by the
entry's accepted triple (if any), with insert-or-ignore semantics. -/
theorem processEntry_rows {e : DocEntry} {rows : List Row} {w : Option GoStr}
    {rows2 : List Row}
    (h : processEntry resolveMIME resolveIANA transcode rel execErr basePath e rows =
      .ok (w, rows2)) :
    rows2 = match acceptOf resolveMIME resolveIANA transcode rel basePath e with
      | some r => insertIgnore rows r
      | none => rows := by
  unfold processEntry at h
  split at h
  · exact absurd h (by simp)
  · rename_i hw
    split at h
    · rename_i hdir
      obtain ⟨hwv, hrv⟩ := Prod.mk.inj (Except.ok.inj h)
      simp [acceptOf, hdir, ← hrv]
    · rename_i hdir
      split at h
      · rename_i hext
        split at h
        · rename_i m hm
          obtain ⟨hwv, hrv⟩ := Prod.mk.inj (Except.ok.inj h)
          simp [acceptOf, hdir, hext, hm, ← hrv]
        · rename_i title hm
          split at h
          · rename_i hti
            obtain ⟨hwv, hrv⟩ := Prod.mk.inj (Except.ok.inj h)
            simp [acceptOf, hdir, hext, hm, hti, ← hrv]
          · rename_i hti
            split at h
            · exact absurd h (by simp)
            · rename_i relPath hrel
              split at h
              · exact absurd h (by simp)
              · rename_i rows3 hex
                obtain ⟨hwv, hrv⟩ := Prod.mk.inj (Except.ok.inj h)
                unfold stmtExec at hex
                split at hex
                · exact absurd hex (by simp)
                · have hr3 := Except.ok.inj hex
                  simp [acceptOf, hdir, hext, hm, hti, hrel, ← hrv, ← hr3]
      · rename_i hext
        obtain ⟨hwv, hrv⟩ := Prod.mk.inj (Except.ok.inj h)
        simp [acceptOf, hdir, hext, ← hrv]

/-- Unfolding equation for `indexDocs` on a cons cell. -/
theorem indexDocs_cons (ws : List GoStr) (rows : List Row) (e : DocEntry)
    (rest : List DocEntry) :
    indexDocs resolveMIME resolveIANA transcode rel execErr basePath ws rows
        (e :: rest) =
      match processEntry resolveMIME resolveIANA transcode rel execErr basePath
          e rows with
      | .error m => (ws, .error m)
      | .ok p =>
        indexDocs resolveMIME resolveIANA transcode rel execErr basePath
          (ws ++ p.1.toList) p.2 rest := by
  cases hp : processEntry resolveMIME resolveIANA transcode rel execErr
      basePath e rows with
  | error m => simp [indexDocs, hp]
  | ok p =>
    obtain ⟨w, rows2⟩ := p
    simp [indexDocs, hp]

/-- The walk outcome (abort or final pending rows) does not depend on the
warnings accumulated so far. -/
theorem indexDocs_snd_ws_irrel :
    ∀ (entries : List DocEntry) (ws₁ ws₂ : List GoStr) (rows : List Row),
      (indexDocs resolveMIME resolveIANA transcode rel execErr basePath ws₁ rows entries).2 =
      (indexDocs resolveMIME resolveIANA transcode rel execErr basePath ws₂ rows entries).2 := by
  intro entries
  induction entries with
  | nil => intro ws₁ ws₂ rows; rfl
  | cons e rest ih =>
    intro ws₁ ws₂ rows
    unfold indexDocs
    cases hp : processEntry resolveMIME resolveIANA transcode rel execErr basePath e rows with
    | error m => rfl
    | ok p => exact ih _ _ p.2

/-- Completed walks report exactly the warnings of the processed
entries. -/
theorem indexDocs_ok_warnings :
    ∀ (entries : List DocEntry) (ws ws' : List GoStr) (rows out : List Row),
      indexDocs resolveMIME resolveIANA transcode rel execErr basePath ws rows entries =
        (ws', .ok out) →
      ws' = ws ++ entries.filterMap (warnOf resolveMIME resolveIANA transcode) := by
  intro entries
  induction entries with
  | nil =>
    intro ws ws' rows out h
    obtain ⟨h1, _⟩ := Prod.mk.inj h
    simp [h1.symm]
  | cons e rest ih =>
    intro ws ws' rows out h
    unfold indexDocs at h
    cases hp : processEntry resolveMIME resolveIANA transcode rel execErr basePath e rows with
    | error m => rw [hp] at h; exact absurd (Prod.mk.inj h).2 (by simp)
    | ok p =>
      rw [hp] at h
      obtain ⟨w, rows2⟩ := p
      have hW := processEntry_warn hp
      have := ih (ws ++ w.toList) ws' rows2 out h
      rw [this, List.filterMap_cons, ← hW]
      cases w <;> simp

/-- The pending rows of a completed walk are the fold of
insert-or-ignore over the accepted triples of all entries. -/
theorem indexDocs_ok_rows :
    ∀ (entries : List DocEntry) (ws ws' : List GoStr) (rows out : List Row),
      indexDocs resolveMIME resolveIANA transcode rel execErr basePath ws rows entries =
        (ws', .ok out) →
      out = (entries.filterMap
          (acceptOf resolveMIME resolveIANA transcode rel basePath)).foldl
          insertIgnore rows := by
  intro entries
  induction entries with
  | nil =>
    intro ws ws' rows out h
    obtain ⟨_, h2⟩ := Prod.mk.inj h
    simpa using (Except.ok.inj h2).symm
  | cons e rest ih =>
    intro ws ws' rows out h
    unfold indexDocs at h
    cases hp : processEntry resolveMIME resolveIANA transcode rel execErr basePath e rows with
    | error m => rw [hp] at h; exact absurd (Prod.mk.inj h).2 (by simp)
    | ok p =>
      rw [hp] at h
      obtain ⟨w, rows2⟩ := p
      have hR := processEntry_rows hp
      have := ih (ws ++ w.toList) ws' rows2 out h
      rw [List.filterMap_cons]
      cases ha : acceptOf resolveMIME resolveIANA transcode rel basePath e with
      | none => rw [ha] at hR; subst hR; simpa using this
      | some r => rw [ha] at hR; subst hR; simpa using this

/-- Shape of an accepted triple: fixed `Guide` category and a non-empty
normalized title. -/
theorem acceptOf_shape {e : DocEntry} {r : Row}
    (h : acceptOf resolveMIME resolveIANA transcode rel basePath e = some r) :
    r.type = guideStr ∧ r.name ≠ [] ∧
      ∃ m, r.name = normalizeTitle (unescapeString m) := by
  unfold acceptOf at h
  split at h
  · exact absurd h (by simp)
  · split at h
    · split at h
      · exact absurd h (by simp)
      · rename_i title hm
        split at h
        · exact absurd h (by simp)
        · rename_i hti
          split at h
          · exact absurd h (by simp)
          · rename_i relPath hrel
            obtain rfl := Option.some.inj h
            exact ⟨rfl, hti, extractTitle_ok_shape hm hti⟩
    · exact absurd h (by simp)

end WalkLemmas

/-- The final contents of the store as a function of the inserted triples:
fold of insert-or-ignore starting from the freshly created empty
relation. -/
def insertAll (l : List Row) : List Row := l.foldl insertIgnore []

/-- Membership after a fold of insert-or-ignore: exactly the starting
rows plus the inserted triples. -/
theorem mem_foldl_insertIgnore :
    ∀ (l : List Row) (acc : List Row) (r : Row),
      r ∈ l.foldl insertIgnore acc ↔ r ∈ acc ∨ r ∈ l := by
  intro l
  induction l with
  | nil => intro acc r; simp
  | cons a t ih =>
    intro acc r
    rw [List.foldl_cons, ih]
    unfold insertIgnore
    constructor
    · intro h
      rcases h with h | h
      · split at h
        · exact Or.elim (Or.inl h) Or.inl Or.inr
        · rcases List.mem_append.mp h with h | h
          · exact Or.inl h
          · exact Or.inr (by simp [List.mem_singleton.mp h])
      · exact Or.inr (by simp [h])
    · intro h
      rcases h with h | h
      · split
        · exact Or.inl h
        · exact Or.inl (List.mem_append.mpr (Or.inl h))
      · rcases List.mem_cons.mp h with rfl | h
        · split
          · rename_i hmem; exact Or.inl hmem
          · exact Or.inl (List.mem_append.mpr (Or.inr (by simp)))
        · exact Or.inr h

/-- Insert-or-ignore preserves freedom from duplicates. -/
theorem nodup_foldl_insertIgnore :
    ∀ (l : List Row) (acc : List Row), acc.Nodup →
      (l.foldl insertIgnore acc).Nodup := by
  intro l
  induction l with
  | nil => intro acc h; exact h
  | cons a t ih =>
    intro acc h
    rw [List.foldl_cons]
    refine ih _ ?_
    unfold insertIgnore
    split
    · exact h
    · rename_i hmem
      rw [← List.concat_eq_append]
      exact List.Nodup.concat hmem h

/-! ### Claim theorems: Indexer and Index Store -/

/-- C2: a per-document read (or decode) failure is recorded as a warning,
that document alone is skipped (pending rows unchanged), and the walk's
outcome is exactly that of the same walk without the failing documents —
no read failure ever aborts the traversal.  (Decoding is total, so read
failures are the only such failures; walk errors on directories and
insertion failures are outside this claim and abort by design.) -/
theorem indexDocs_read_failures_skipped {Enc : Type}
    (resolveMIME resolveIANA : GoStr → Option Enc)
    (transcode : Enc → GoStr → Option GoStr)
    (rel : GoStr → GoStr → Except GoStr GoStr)
    (execErr : Row → Option GoStr) (basePath : GoStr) :
    (∀ (entries : List DocEntry) (ws : List GoStr) (rows : List Row),
      (indexDocs resolveMIME resolveIANA transcode rel execErr basePath
          ws rows entries).2 =
      (indexDocs resolveMIME resolveIANA transcode rel execErr basePath
          ws rows (entries.filter
            (fun e => !(readFails resolveMIME resolveIANA transcode e)))).2) ∧
    (∀ entries ws ws' rows out,
      indexDocs resolveMIME resolveIANA transcode rel execErr basePath
          ws rows entries = (ws', .ok out) →
      ws' = ws ++ entries.filterMap (warnOf resolveMIME resolveIANA transcode)) ∧
    (∀ e : DocEntry, readFails resolveMIME resolveIANA transcode e = true →
      ∀ rows : List Row, ∃ m,
        processEntry resolveMIME resolveIANA transcode rel execErr basePath e rows =
          .ok (some (warnMsg e.path m), rows)) := by
  refine ⟨?_, ?_, ?_⟩
  · intro entries
    induction entries with
    | nil => intro ws rows; rfl
    | cons e rest ih =>
      intro ws rows
      by_cases hf : readFails resolveMIME resolveIANA transcode e = true
      · obtain ⟨m, hp⟩ := @processEntry_of_readFails Enc resolveMIME
          resolveIANA transcode rel execErr basePath e rows hf
        have hfil : (e :: rest).filter
            (fun e => !(readFails resolveMIME resolveIANA transcode e)) =
            rest.filter (fun e => !(readFails resolveMIME resolveIANA transcode e)) := by
          simp [List.filter_cons, hf]
        rw [hfil, indexDocs_cons, hp]
        dsimp only
        exact (ih (ws ++ [warnMsg e.path m]) rows).trans
          (indexDocs_snd_ws_irrel _ _ _ _)
      · have hfil : (e :: rest).filter
            (fun e => !(readFails resolveMIME resolveIANA transcode e)) =
            e :: rest.filter
              (fun e => !(readFails resolveMIME resolveIANA transcode e)) := by
          simp [List.filter_cons, hf]
        rw [hfil, indexDocs_cons, indexDocs_cons]
        cases hp : processEntry resolveMIME resolveIANA transcode rel
            execErr basePath e rows with
        | error m => rfl
        | ok p =>
          dsimp only
          exact ih (ws ++ p.1.toList) p.2
  · intro entries ws ws' rows out h
    exact indexDocs_ok_warnings entries ws ws' rows out h
  · intro e hf rows
    exact processEntry_of_readFails hf

/-- Witness for C2: one unreadable HTML file produces exactly its warning,
is skipped, and the walk still completes. -/
theorem indexDocs_read_failures_skipped_witness :
    (∃ m, processEntry noResolve noResolve
        noTranscode relId execOk []
        ⟨"a.htm".toList, none, false, .error "boom".toList⟩ [] =
        .ok (some (warnMsg "a.htm".toList m), [])) ∧
    (indexDocs noResolve noResolve
        noTranscode relId execOk [] [] []
        [⟨"a.htm".toList, none, false, .error "boom".toList⟩]).2 =
      (indexDocs noResolve noResolve
        noTranscode relId execOk [] [] [] []).2 := by
  constructor
  · exact (indexDocs_read_failures_skipped noResolve noResolve
      noTranscode relId execOk []).2.2
      ⟨"a.htm".toList, none, false, .error "boom".toList⟩ (by decide) []
  · exact (indexDocs_read_failures_skipped noResolve noResolve
      noTranscode relId execOk []).1
      [⟨"a.htm".toList, none, false, .error "boom".toList⟩] [] []

/-- C4: all insertions of a run happen inside the single transaction of
`CreateDatabase` with insert-or-ignore semantics; a non-uniqueness
insertion failure (or any other abort) rolls the transaction back, so an
observer of the store sees either no rows at all (before commit, or after
a failed run) or exactly the fully populated set of accepted triples
(after commit) — never a strict, partially populated subset. -/
theorem createDatabase_atomic {Enc : Type}
    (resolveMIME resolveIANA : GoStr → Option Enc)
    (transcode : Enc → GoStr → Option GoStr)
    (rel : GoStr → GoStr → Except GoStr GoStr)
    (execErr : Row → Option GoStr) (basePath : GoStr)
    (entries : List DocEntry) :
    ((CreateDatabase resolveMIME resolveIANA transcode rel execErr basePath
        entries).2.2.isSome = true →
      (CreateDatabase resolveMIME resolveIANA transcode rel execErr basePath
        entries).2.1 = []) ∧
    ((CreateDatabase resolveMIME resolveIANA transcode rel execErr basePath
        entries).2.2 = none →
      (CreateDatabase resolveMIME resolveIANA transcode rel execErr basePath
        entries).2.1 =
        insertAll (entries.filterMap
          (acceptOf resolveMIME resolveIANA transcode rel basePath))) := by
  unfold CreateDatabase
  rcases h : indexDocs resolveMIME resolveIANA transcode rel execErr basePath
      [] [] entries with ⟨ws, res⟩
  cases res with
  | ok out =>
    refine ⟨fun hs => absurd hs (by simp), fun _ => ?_⟩
    exact indexDocs_ok_rows entries [] ws [] out h
  | error m =>
    exact ⟨fun _ => rfl, fun hn => absurd hn (by simp)⟩

/-- Witness for C4: a run whose insertion oracle fails commits nothing;
a clean run commits exactly the accepted triples. -/
theorem createDatabase_atomic_witness :
    (CreateDatabase noResolve noResolve
      noTranscode (fun _ p => .ok p) (fun _ => some "disk full".toList)
      [] [⟨"a.htm".toList, none, false, .ok "<title>T</title>".toList⟩]).2.1 = [] ∧
    (CreateDatabase noResolve noResolve
      noTranscode relId execOk
      [] [⟨"a.htm".toList, none, false, .ok "<title>T</title>".toList⟩]).2.1 =
      insertAll ([⟨"a.htm".toList, none, false,
        .ok "<title>T</title>".toList⟩].filterMap
        (acceptOf noResolve noResolve noTranscode relId [])) := by
  constructor
  · exact (createDatabase_atomic noResolve noResolve
      noTranscode (fun _ p => .ok p) (fun _ => some "disk full".toList)
      [] [⟨"a.htm".toList, none, false, .ok "<title>T</title>".toList⟩]).1
      (by decide)
  · exact (createDatabase_atomic noResolve noResolve
      noTranscode relId execOk
      [] [⟨"a.htm".toList, none, false, .ok "<title>T</title>".toList⟩]).2
      (by decide)

/-- C5: the stored rows are a function of the set of accepted triples
only: insert-or-ignore is idempotent set membership (no duplicate row, no
error on collision, each inserted triple stored exactly once), so
permuting the traversal order or re-inserting the same triples yields an
identical row set, and a completed run commits exactly
`insertAll` of its accepted triples. -/
theorem insertAll_set_semantics (l₁ l₂ : List Row) :
    (insertAll l₁).Nodup ∧
    (∀ r, r ∈ insertAll l₁ ↔ r ∈ l₁) ∧
    (l₁.Perm l₂ → (insertAll l₁).toFinset = (insertAll l₂).toFinset) ∧
    ((insertAll (l₁ ++ l₁)).toFinset = (insertAll l₁).toFinset) ∧
    (∀ r ∈ l₁, (insertAll l₁).count r = 1) := by
  have hmem : ∀ (l : List Row) (r : Row), r ∈ insertAll l ↔ r ∈ l := by
    intro l r
    unfold insertAll
    rw [mem_foldl_insertIgnore]
    simp
  have hnd : ∀ l : List Row, (insertAll l).Nodup :=
    fun l => nodup_foldl_insertIgnore l [] List.nodup_nil
  refine ⟨hnd l₁, hmem l₁, ?_, ?_, ?_⟩
  · intro hp
    ext r
    simp only [List.mem_toFinset, hmem]
    exact hp.mem_iff
  · ext r
    simp only [List.mem_toFinset, hmem, List.mem_append, or_self]
  · intro r hr
    exact List.count_eq_one_of_mem (hnd l₁) ((hmem l₁ r).mpr hr)

/-- Witness for C5: two opposite traversal orders of the same two triples
produce the same stored set. -/
theorem insertAll_set_semantics_witness :
    (insertAll [Row.mk "A".toList "Guide".toList "a.htm".toList,
        Row.mk "B".toList "Guide".toList "b.htm".toList]).toFinset =
    (insertAll [Row.mk "B".toList "Guide".toList "b.htm".toList,
        Row.mk "A".toList "Guide".toList "a.htm".toList]).toFinset :=
  (insertAll_set_semantics
    [Row.mk "A".toList "Guide".toList "a.htm".toList,
     Row.mk "B".toList "Guide".toList "b.htm".toList]
    [Row.mk "B".toList "Guide".toList "b.htm".toList,
     Row.mk "A".toList "Guide".toList "a.htm".toList]).2.2.1
    (List.Perm.swap _ _ _)

/-! ### Normalization properties and stored-row shape -/

/-- The four whitespace-normalization properties of `normalizeTitle`:
only plain spaces survive, never two adjacent, and none at either end. -/
theorem normalizeTitle_props (t : GoStr) :
    (∀ c ∈ normalizeTitle t, goIsSpace c = true → c = ' ') ∧
    List.Chain' noTwoSpaces (normalizeTitle t) ∧
    (∀ c, (normalizeTitle t).head? = some c → goIsSpace c = false) ∧
    (∀ c, (normalizeTitle t).getLast? = some c → goIsSpace c = false) := by
  have hW : ∀ u ∈ fields t, u ≠ [] ∧ ∀ c ∈ u, goIsSpace c = false :=
    fieldsAux_words t [] (by simp)
  refine ⟨?_, joinSp_chain' (fields t) hW, ?_, ?_⟩
  · intro c hc hs
    rcases joinSp_chars (fields t) c hc with h | ⟨u, hu, hcu⟩
    · exact h
    · exact absurd hs (by simp [(hW u hu).2 c hcu])
  · intro c hc
    unfold normalizeTitle at hc
    cases hF : fields t with
    | nil => rw [hF] at hc; exact absurd hc (by simp [joinSp])
    | cons w r =>
      rw [hF, joinSp_head? r (hW w (by simp [hF])).1] at hc
      exact (hW w (by simp [hF])).2 c (List.mem_of_mem_head? (Option.mem_def.mpr hc))
  · intro c hc
    unfold normalizeTitle at hc
    cases hL : (fields t).getLast? with
    | none =>
      rw [List.getLast?_eq_none_iff.mp hL] at hc
      exact absurd hc (by simp [joinSp])
    | some w =>
      have hw : w ∈ fields t := List.mem_of_getLast?_eq_some hL
      rw [joinSp_getLast? (fields t) w (fun u hu => (hW u hu).1) hL] at hc
      exact (hW w hw).2 c (List.mem_of_mem_getLast? (Option.mem_def.mpr hc))

/-- Every row a run ever commits carries the fixed `Guide` category and a
non-empty name that is the normalization of some unescaped capture. -/
theorem storedRow_name_shape {Enc : Type}
    {resolveMIME resolveIANA : GoStr → Option Enc}
    {transcode : Enc → GoStr → Option GoStr}
    {rel : GoStr → GoStr → Except GoStr GoStr}
    {execErr : Row → Option GoStr} {basePath : GoStr}
    {entries : List DocEntry} {r : Row}
    (h : r ∈ (CreateDatabase resolveMIME resolveIANA transcode rel execErr
        basePath entries).2.1) :
    r.type = guideStr ∧ r.name ≠ [] ∧
      ∃ m, r.name = normalizeTitle (unescapeString m) := by
  unfold CreateDatabase at h
  rcases hidx : indexDocs resolveMIME resolveIANA transcode rel execErr
      basePath [] [] entries with ⟨ws, res⟩
  rw [hidx] at h
  cases res with
  | error m =>
    dsimp only at h
    exact absurd h (by simp)
  | ok out =>
    dsimp only at h
    rw [indexDocs_ok_rows entries [] ws [] out hidx] at h
    rw [mem_foldl_insertIgnore] at h
    rcases h with h | h
    · exact absurd h (by simp)
    · obtain ⟨e, _, he⟩ := List.mem_filterMap.mp h
      exact acceptOf_shape he

/-! ### Claim theorems: Title Extractor normalization -/

/-- C6: every normalized title has every whitespace run collapsed to a
single plain space and no leading or trailing whitespace; in particular
this holds for the name of every row committed to the index. -/
theorem normalizeTitle_collapses_whitespace (t : GoStr) :
    ((∀ c ∈ normalizeTitle t, goIsSpace c = true → c = ' ') ∧
      List.Chain' noTwoSpaces (normalizeTitle t) ∧
      (∀ c, (normalizeTitle t).head? = some c → goIsSpace c = false) ∧
      (∀ c, (normalizeTitle t).getLast? = some c → goIsSpace c = false)) ∧
    (∀ (Enc : Type) (resolveMIME resolveIANA : GoStr → Option Enc)
        (transcode : Enc → GoStr → Option GoStr)
        (rel : GoStr → GoStr → Except GoStr GoStr)
        (execErr : Row → Option GoStr) (basePath : GoStr)
        (entries : List DocEntry) (r : Row),
      r ∈ (CreateDatabase resolveMIME resolveIANA transcode rel execErr
          basePath entries).2.1 →
      (∀ c ∈ r.name, goIsSpace c = true → c = ' ') ∧
        List.Chain' noTwoSpaces r.name ∧
        (∀ c, r.name.head? = some c → goIsSpace c = false) ∧
        (∀ c, r.name.getLast? = some c → goIsSpace c = false)) := by
  refine ⟨normalizeTitle_props t, ?_⟩
  intro Enc resolveMIME resolveIANA transcode rel execErr basePath entries r hr
  obtain ⟨_, _, m, hm⟩ := storedRow_name_shape hr
  rw [hm]
  exact normalizeTitle_props (unescapeString m)

/-- Witness for C6 at a title with embedded tabs, newlines and repeated
spaces. -/
theorem normalizeTitle_collapses_whitespace_witness :
    List.Chain' noTwoSpaces (normalizeTitle "  a \n\t b  ".toList) ∧
    (∀ c, (normalizeTitle "  a \n\t b  ".toList).head? = some c →
      goIsSpace c = false) :=
  ⟨(normalizeTitle_collapses_whitespace "  a \n\t b  ".toList).1.2.1,
   (normalizeTitle_collapses_whitespace "  a \n\t b  ".toList).1.2.2.1⟩

/-! ### Claim theorems: stored-row invariant (C10) -/

/-- C10 counterexample: the capture class `[^<]+` excludes `'<'`, but
`html.UnescapeString` runs afterwards and can re-introduce it — a
document titled `&lt;x` commits the name `<x`, which contains `'<'`. -/
theorem storedRows_lt_counterexample :
    (CreateDatabase noResolve noResolve
      noTranscode relId execOk []
      [⟨"a.htm".toList, none, false, .ok "<title>&lt;x</title>".toList⟩]).2.1 =
      [⟨"<x".toList, "Guide".toList, "a.htm".toList⟩] ∧
    '<' ∈ (Row.mk "<x".toList "Guide".toList "a.htm".toList).name := by
  exact ⟨rfl, by decide⟩

/-- C10 (amended): every committed row has a non-empty name with no
leading or trailing whitespace and the fixed type `Guide`; the original
"no `'<'` character" part fails, because entity unescaping happens after
the `[^<]+` capture and can introduce `'<'` (e.g. from `&lt;`). -/
theorem storedRows_invariant {Enc : Type}
    (resolveMIME resolveIANA : GoStr → Option Enc)
    (transcode : Enc → GoStr → Option GoStr)
    (rel : GoStr → GoStr → Except GoStr GoStr)
    (execErr : Row → Option GoStr) (basePath : GoStr)
    (entries : List DocEntry) :
    ∀ r ∈ (CreateDatabase resolveMIME resolveIANA transcode rel execErr
        basePath entries).2.1,
      r.name ≠ [] ∧
      (∀ c, r.name.head? = some c → goIsSpace c = false) ∧
      (∀ c, r.name.getLast? = some c → goIsSpace c = false) ∧
      r.type = guideStr := by
  intro r hr
  obtain ⟨hty, hne, m, hm⟩ := storedRow_name_shape hr
  refine ⟨hne, ?_, ?_, hty⟩
  · rw [hm]
    exact (normalizeTitle_props (unescapeString m)).2.2.1
  · rw [hm]
    exact (normalizeTitle_props (unescapeString m)).2.2.2

/-- Witness for C10 (amended) on a concrete committed row. -/
theorem storedRows_invariant_witness :
    ("Hi".toList ≠ [] ∧
      (∀ c, ("Hi".toList : GoStr).head? = some c → goIsSpace c = false) ∧
      (∀ c, ("Hi".toList : GoStr).getLast? = some c → goIsSpace c = false) ∧
      "Guide".toList = guideStr) := by
  have := storedRows_invariant noResolve noResolve
    noTranscode relId execOk []
    [⟨"a.htm".toList, none, false, .ok "<title>Hi</title>".toList⟩]
    ⟨"Hi".toList, "Guide".toList, "a.htm".toList⟩ (by decide)
  exact this

/-! ### Path lemmas (`goClean` / `goJoin` suffix preservation) -/

/-- `hasSuffix` is suffix decomposition. -/
theorem hasSuffix_iff {s suf : GoStr} :
    hasSuffix s suf = true ↔ ∃ t, s = t ++ suf := by
  unfold hasSuffix
  rw [Bool.and_eq_true, decide_eq_true_eq, beq_iff_eq]
  constructor
  · rintro ⟨hle, hdrop⟩
    refine ⟨s.take (s.length - suf.length), ?_⟩
    conv_lhs => rw [← List.take_append_drop (s.length - suf.length) s]
    rw [hdrop]
  · rintro ⟨t, rfl⟩
    refine ⟨by simp, ?_⟩
    rw [List.length_append, Nat.add_sub_cancel, List.drop_left]

/-- `splitSlash` never returns the empty list. -/
theorem splitSlash_ne_nil : ∀ s : GoStr, splitSlash s ≠ [] := by
  intro s
  cases s with
  | nil => simp [splitSlash]
  | cons c rest =>
    unfold splitSlash
    split
    · simp
    · dsimp only
      split <;> simp

/-- A slash-free string is a single component. -/
theorem splitSlash_no_slash :
    ∀ s : GoStr, (∀ c ∈ s, c ≠ '/') → splitSlash s = [s] := by
  intro s
  induction s with
  | nil => intro _; rfl
  | cons c rest ih =>
    intro h
    unfold splitSlash
    rw [ih (fun x hx => h x (by simp [hx]))]
    rw [if_neg (h c (by simp))]

/-- The last component of `x ++ s` ends with `s` whenever `s` is
slash-free. -/
theorem splitSlash_getLast_suffix :
    ∀ (x s : GoStr), (∀ c ∈ s, c ≠ '/') →
      ∃ t, (splitSlash (x ++ s)).getLast? = some (t ++ s) := by
  intro x s hs
  induction x with
  | nil =>
    rw [List.nil_append, splitSlash_no_slash s hs]
    exact ⟨[], rfl⟩
  | cons ch x ih =>
    obtain ⟨t, ht⟩ := ih
    obtain ⟨g, gs, hr⟩ := List.exists_cons_of_ne_nil (splitSlash_ne_nil (x ++ s))
    show ∃ t, (splitSlash (ch :: (x ++ s))).getLast? = some (t ++ s)
    unfold splitSlash
    rw [hr]
    dsimp only
    by_cases hch : ch = '/'
    · rw [if_pos hch]
      rw [List.getLast?_cons_cons, ← hr]
      exact ⟨t, ht⟩
    · rw [if_neg hch]
      cases gs with
      | nil =>
        rw [hr] at ht
        obtain rfl := Option.some.inj ht
        exact ⟨ch :: t, rfl⟩
      | cons g2 gs2 =>
        rw [List.getLast?_cons_cons]
        rw [hr, List.getLast?_cons_cons] at ht
        exact ⟨t, ht⟩

/-- Appending a normal component to the processed components pushes it on
top. -/
theorem cleanComps_concat_normal {c : GoStr} (hne : c ≠ [])
    (hdot : c ≠ ['.']) (hdd : c ≠ ['.', '.']) (rooted : Bool)
    (cs : List GoStr) :
    cleanComps rooted (cs ++ [c]) = c :: cleanComps rooted cs := by
  unfold cleanComps
  rw [List.foldl_append]
  show cleanStep rooted (List.foldl (cleanStep rooted) [] cs) c = _
  unfold cleanStep
  rw [if_neg (by simp [hne, hdot]), if_neg hdd]

/-- `interSlash` of a list ending in `c` ends in `c`. -/
theorem interSlash_concat :
    ∀ (l : List GoStr) (c : GoStr), ∃ t, interSlash (l ++ [c]) = t ++ c := by
  intro l
  induction l with
  | nil => intro c; exact ⟨[], rfl⟩
  | cons g l ih =>
    intro c
    obtain ⟨t, ht⟩ := ih c
    cases hl : l ++ [c] with
    | nil => exact absurd hl (by simp)
    | cons h t2 =>
      refine ⟨g ++ '/' :: t, ?_⟩
      show interSlash (g :: (l ++ [c])) = (g ++ '/' :: t) ++ c
      rw [hl]
      show g ++ '/' :: interSlash (h :: t2) = (g ++ '/' :: t) ++ c
      rw [← hl, ht]
      simp

/-- `goClean` preserves a normal last component as the suffix of its
result. -/
theorem goClean_suffix {s c : GoStr}
    (h : (splitSlash s).getLast? = some c) (hne : c ≠ [])
    (hdot : c ≠ ['.']) (hdd : c ≠ ['.', '.']) :
    ∃ t, goClean s = t ++ c := by
  rcases List.getLast?_eq_some_iff.mp h with ⟨cs, hcs⟩
  have hsne : s ≠ [] := by
    rintro rfl
    simp [splitSlash] at h
    exact hne h
  unfold goClean
  rw [if_neg hsne]
  dsimp only
  rw [hcs, cleanComps_concat_normal hne hdot hdd, List.reverse_cons]
  obtain ⟨t, ht⟩ := interSlash_concat
    (cleanComps (decide (s.head? = some '/')) cs).reverse c
  rw [ht]
  by_cases hr : s.head? = some '/'
  · rw [if_pos hr]
    exact ⟨'/' :: t, by simp⟩
  · rw [if_neg hr, if_neg (by simp [hne])]
    exact ⟨t, rfl⟩

/-- Cleaning any path that ends in the literal `.docset` (in its last
component) leaves a path that still ends in `.docset`. -/
theorem goClean_docset (x : GoStr) :
    ∃ t, goClean (x ++ ".docset".toList) = t ++ ".docset".toList := by
  have hslash : ∀ c ∈ (".docset".toList : GoStr), c ≠ '/' := by decide
  obtain ⟨t0, hlast⟩ := splitSlash_getLast_suffix x ".docset".toList hslash
  have hne : t0 ++ ".docset".toList ≠ [] := by simp
  have hdot : t0 ++ ".docset".toList ≠ ['.'] := by
    intro hh
    have := congrArg List.length hh
    simp [List.length_append] at this
  have hdd : t0 ++ ".docset".toList ≠ ['.', '.'] := by
    intro hh
    have := congrArg List.length hh
    simp [List.length_append] at this
  obtain ⟨t, ht⟩ := goClean_suffix hlast hne hdot hdd
  exact ⟨t ++ t0, by rw [ht, List.append_assoc]⟩

/-- Joining any directory with an element of the form `base ++ ".docset"`
yields a path ending in `.docset`. -/
theorem goJoin_docset_suffix (a bn : GoStr) :
    ∃ t, goJoin a (bn ++ ".docset".toList) = t ++ ".docset".toList := by
  have hbne : bn ++ ".docset".toList ≠ [] := by simp
  unfold goJoin
  rw [if_neg (fun hh => hbne hh.2)]
  by_cases ha : a = []
  · rw [if_pos ha]
    exact goClean_docset bn
  · rw [if_neg ha, if_neg hbne]
    have hsplit : a ++ '/' :: (bn ++ ".docset".toList) =
        (a ++ '/' :: bn) ++ ".docset".toList := by simp
    rw [hsplit]
    exact goClean_docset (a ++ '/' :: bn)

/-! ### Claim theorems: bundle paths and identifier -/

/-- C9: the output-directory option is used verbatim as the bundle root
exactly when it ends in `.docset` (and then the source base name plays no
part); otherwise the bundle root is the output directory joined with the
base name plus `.docset`, which never coincides with the output
directory. -/
theorem docsetPath_verbatim_iff (opts : Options) :
    (hasSuffix opts.Outdir ".docset".toList = true →
      Options.DocsetPath opts = opts.Outdir ∧
      ∀ opts2 : Options, opts2.Outdir = opts.Outdir →
        Options.DocsetPath opts2 = Options.DocsetPath opts) ∧
    (hasSuffix opts.Outdir ".docset".toList = false →
      Options.DocsetPath opts =
        goJoin opts.Outdir (opts.Basename ++ ".docset".toList) ∧
      Options.DocsetPath opts ≠ opts.Outdir) := by
  constructor
  · intro h
    refine ⟨by unfold Options.DocsetPath; rw [if_pos h], ?_⟩
    intro opts2 heq
    unfold Options.DocsetPath
    rw [heq, if_pos h, if_pos h]
  · intro h
    have hP : Options.DocsetPath opts =
        goJoin opts.Outdir (opts.Basename ++ ".docset".toList) := by
      unfold Options.DocsetPath
      rw [if_neg (fun hh => Bool.false_ne_true (h.symm.trans hh))]
    refine ⟨hP, ?_⟩
    intro heq
    obtain ⟨t, ht⟩ := goJoin_docset_suffix opts.Outdir opts.Basename
    have hsuf : hasSuffix opts.Outdir ".docset".toList = true :=
      hasSuffix_iff.mpr ⟨t, by rw [← heq, hP, ht]⟩
    rw [h] at hsuf
    exact Bool.false_ne_true hsuf

/-- Witness for C9: the default `./` output directory is not used
verbatim, while an explicit `out.docset` is. -/
theorem docsetPath_verbatim_iff_witness :
    (Options.DocsetPath ⟨"./".toList, "unknown".toList, "Foo Bar.chm".toList⟩ =
      goJoin "./".toList
        ((Options.Basename ⟨"./".toList, "unknown".toList, "Foo Bar.chm".toList⟩) ++
          ".docset".toList) ∧
     Options.DocsetPath ⟨"./".toList, "unknown".toList, "Foo Bar.chm".toList⟩ ≠
      "./".toList) ∧
    Options.DocsetPath ⟨"out.docset".toList, "unknown".toList, "x.chm".toList⟩ =
      "out.docset".toList := by
  constructor
  · exact (docsetPath_verbatim_iff
      ⟨"./".toList, "unknown".toList, "Foo Bar.chm".toList⟩).2 (by decide)
  · exact ((docsetPath_verbatim_iff
      ⟨"out.docset".toList, "unknown".toList, "x.chm".toList⟩).1 (by decide)).1

/-- C8 counterexample: with source `Foo Bar.chm` and the default output
directory `./`, the program's bundle root string is `Foo Bar.docset`
(`filepath.Join` cleans away the `./`), not the literal
`./Foo Bar.docset` the claim states. -/
theorem bundle_scenarioC_counterexample :
    Options.DocsetPath ⟨"./".toList, "unknown".toList, "Foo Bar.chm".toList⟩ =
      "Foo Bar.docset".toList ∧
    ("Foo Bar.docset".toList : GoStr) ≠ "./Foo Bar.docset".toList := by
  exact ⟨by decide, by decide⟩

/-- C8 (amended): the bundle identifier is the fixed reverse-DNS prefix
plus the base name filtered to letters, digits, hyphen, underscore and
caret — for `Foo Bar.chm` this is `io.ngs.documentation.FooBar`; the
bundle root for the default destination is the string `Foo Bar.docset`,
the cleaned form of `./Foo Bar.docset` (the same location in the current
directory). -/
theorem bundleIdentifier_sanitized (opts : Options) :
    Options.BundleIdentifier opts =
      "io.ngs.documentation.".toList ++ opts.Basename.filter isSafeBundleChar ∧
    Options.BundleIdentifier
        ⟨"./".toList, "unknown".toList, "Foo Bar.chm".toList⟩ =
      "io.ngs.documentation.FooBar".toList ∧
    Options.DocsetPath ⟨"./".toList, "unknown".toList, "Foo Bar.chm".toList⟩ =
      "Foo Bar.docset".toList ∧
    goClean "./Foo Bar.docset".toList = "Foo Bar.docset".toList :=
  ⟨rfl, by decide, by decide, by decide⟩

/-! ### Lemmas for the `titleRE` characterization -/

/-- Introduction rule for a successful case-insensitive literal match. -/
theorem dropCI_intro {p s pre rest : GoStr} (hpre : lowerStr pre = p)
    (hs : s = pre ++ rest) : dropCI p s = some rest := by
  unfold dropCI
  subst hs
  have hlen : p.length = pre.length := by
    rw [← hpre]; simp [lowerStr]
  rw [hlen, List.take_left, List.drop_left, if_pos hpre]

/-- Elimination rule for a successful case-insensitive literal match. -/
theorem dropCI_elim {p s rest : GoStr} (h : dropCI p s = some rest) :
    lowerStr (s.take p.length) = p ∧ rest = s.drop p.length ∧
      s = s.take p.length ++ rest := by
  unfold dropCI at h
  split at h
  · rename_i hcond
    obtain rfl := Option.some.inj h
    exact ⟨hcond, rfl, (List.take_append_drop _ _).symm⟩
  · exact absurd h (by simp)

/-- Dropping the matched run reaches the first failing element. -/
theorem drop_length_takeWhile (p : Char → Bool) (l : GoStr) :
    l.drop (l.takeWhile p).length = l.dropWhile p := by
  have h := List.drop_left (l.takeWhile p) (l.dropWhile p)
  rw [List.takeWhile_append_dropWhile] at h
  exact h

/-- The head of a non-empty `dropWhile` result fails the predicate. -/
theorem dropWhile_head_false {p : Char → Bool} :
    ∀ (l : GoStr) (b : Char) (r : GoStr), l.dropWhile p = b :: r →
      p b = false := by
  intro l
  induction l with
  | nil => intro b r h; exact absurd h (by simp)
  | cons a l ih =>
    intro b r h
    rw [List.dropWhile_cons] at h
    split at h
    · exact ih b r h
    · rename_i hpa
      injection h with h1 h2
      subst h1
      exact (Bool.not_eq_true _) ▸ hpa

/-! ### Claim theorems: Title Extractor matching (C1) -/

/-- C1 counterexample: a title whose text is followed by a `'<'` that
does not open a matching `</title>` yields no title at all — the capture
is not returned, contrary to the claim (though indeed no error is
raised: extraction reports the no-title sentinel). -/
theorem title_unterminated_counterexample :
    findTitle "<title>Hello<b>".toList = none ∧
    extractTitle noResolve noResolve
      noTranscode (.ok "<title>Hello<b>".toList) = .ok [] := by
  exact ⟨by decide, rfl⟩

/-- C1 (amended): at any anchor, `titleRE` matches exactly the strings of
the form `<title`⟨attrs without `'>'`⟩`>`⟨non-empty text without
`'<'`⟩`</title>`⟨anything⟩, all tag literals case-insensitive: the
captured text runs to the first `'<'` and that `'<'` must open a
case-insensitive `</title>` closing tag, otherwise this candidate yields
nothing (malformed or unterminated markup never yields an error — the
extractor returns the no-title sentinel instead, and a later well-formed
element can still match). -/
theorem titleRE_requires_closing_tag (s t : GoStr) :
    matchTitleAt s = some t ↔
      ∃ o a c r, s = o ++ a ++ '>' :: (t ++ '<' :: (c ++ r)) ∧
        lowerStr o = "<title".toList ∧
        (∀ ch ∈ a, ch ≠ '>') ∧
        t ≠ [] ∧ (∀ ch ∈ t, ch ≠ '<') ∧
        lowerStr ('<' :: c) = "</title>".toList := by
  constructor
  · intro h
    unfold matchTitleAt at h
    split at h
    · exact absurd h (by simp)
    · rename_i s1 hd
      obtain ⟨ho, hs1, hsplit⟩ := dropCI_elim hd
      dsimp only at h
      split at h
      · rename_i c2 s3 heq
        split at h
        · rename_i hc2
          subst hc2
          rw [drop_length_takeWhile] at heq
          split at h
          · exact absurd h (by simp)
          · rename_i hti
            split at h
            · rename_i u hdc
              obtain rfl := Option.some.inj h
              rw [drop_length_takeWhile] at hdc
              obtain ⟨hc8, hu, hs3split⟩ := dropCI_elim hdc
              rcases hr3 : s3.dropWhile (fun c => decide (c ≠ '<')) with _ | ⟨ch, rest4⟩
              · rw [hr3] at hc8
                simp [lowerStr] at hc8
              · have hch : (fun c => decide (c ≠ '<')) ch = false :=
                  dropWhile_head_false s3 ch rest4 hr3
                have hch' : ch = '<' := by simpa using hch
                subst hch'
                rw [hr3] at hc8
                have hlen8 : ("</title>".toList : GoStr).length = 8 := by decide
                rw [hlen8, List.take_succ_cons] at hc8
                refine ⟨s.take ("<title".toList : GoStr).length,
                  s1.takeWhile (fun c => decide (c ≠ '>')),
                  rest4.take 7, rest4.drop 7, ?_, ho, ?_, hti, ?_, ?_⟩
                · have e2 : s3 = s3.takeWhile (fun c => decide (c ≠ '<')) ++
                      '<' :: (rest4.take 7 ++ rest4.drop 7) := by
                    conv_lhs => rw [← List.takeWhile_append_dropWhile
                      (p := fun c => decide (c ≠ '<')) (l := s3)]
                    rw [hr3, List.take_append_drop]
                  have e1 : s1 = s1.takeWhile (fun c => decide (c ≠ '>')) ++
                      '>' :: (s3.takeWhile (fun c => decide (c ≠ '<')) ++
                        '<' :: (rest4.take 7 ++ rest4.drop 7)) := by
                    conv_lhs => rw [← List.takeWhile_append_dropWhile
                      (p := fun c => decide (c ≠ '>')) (l := s1)]
                    rw [heq, ← e2]
                  conv_lhs => rw [hsplit, e1]
                  simp [List.append_assoc]
                · intro ch hch
                  have := List.mem_takeWhile_imp hch
                  simpa using this
                · intro ch hch
                  have := List.mem_takeWhile_imp hch
                  simpa using this
                · exact hc8
            · exact absurd h (by simp)
        · exact absurd h (by simp)
      · exact absurd h (by simp)
  · rintro ⟨o, a, c, r, hs, ho, ha, hti, htl, hc⟩
    have hZ : s = o ++ (a ++ '>' :: (t ++ '<' :: (c ++ r))) := by
      rw [hs]; simp [List.append_assoc]
    unfold matchTitleAt
    rw [dropCI_intro ho hZ]
    dsimp only
    rw [drop_length_takeWhile, dropWhile_append_cons a '>' _
      (fun x hx => by simpa using ha x hx) (by simp)]
    dsimp only
    rw [if_pos rfl]
    rw [takeWhile_append_cons t '<' (c ++ r)
      (fun x hx => by simpa using htl x hx) (by simp)]
    rw [if_neg hti, List.drop_left]
    rw [dropCI_intro hc (by simp : '<' :: (c ++ r) = ('<' :: c) ++ r)]

/-- Witness for C1 (amended): a mixed-case, attribute-carrying title
element matches and captures its text. -/
theorem titleRE_requires_closing_tag_witness :
    matchTitleAt "<TiTle x=1>A b</tItLe>rest".toList = some "A b".toList :=
  (titleRE_requires_closing_tag "<TiTle x=1>A b</tItLe>rest".toList
    "A b".toList).mpr
    ⟨"<TiTle".toList, " x=1".toList, "/tItLe>".toList, "rest".toList,
      by decide, by decide, by decide, by decide, by decide, by decide⟩

end Chm2Docset
